import Mathlib

/-
Verification of the EveryNotify dispatch scheduler (src/dispatcher.ts) and its
supporting pure helpers, as a shallow embedding in Lean.

Modelling conventions:
- JS `Map` is an insertion-ordered association list; `Map.get` finds the entry,
  `Map.set` replaces in place or appends, `Map.delete` removes the key.
- `setTimeout` handles are modelled by fresh natural-number timer ids held in a
  list of armed timers; `clearTimeout` removes a timer by id; the event loop is
  modelled by an `advanceTo` action that moves the clock forward and fires every
  due timer in creation order.
- `Date.now()` is the `now` field of the dispatcher state.
- A backend attempt either resolves (`success`) or rejects with a reason string
  (`rejected`); a 5 s timeout abort surfaces as a rejection, as in the source.
- JS numbers for the `delay` configuration are modelled as rationals (NaN is not
  representable and is outside the claims considered here).
-/

set_option maxHeartbeats 1000000

namespace Everynotify

/-- Truncation direction for messages exceeding service limits
("end": keep beginning; "start": keep end). `end` is a Lean keyword, so the
constructor is written `end'`. -/
inductive TruncationMode
  | start
  | end'
deriving DecidableEq, Repr

/-- Event types that trigger notifications. -/
inductive EventType
  | complete
  | subagent_complete
  | error
  | permission
  | question
deriving DecidableEq, Repr

/-- Notification payload sent to all enabled services. -/
structure NotificationPayload where
  eventType : EventType
  title : String
  message : String
  projectName : Option String
  timestamp : Int
  sessionID : Option String
  elapsedSeconds : Option Int
deriving DecidableEq, Repr

/-- `truncate` from src/dispatcher.ts: bound `text` to `maxLength` characters,
marking a cut with the fixed indicator `"..."`. `from'` renders the `from`
parameter (a Lean keyword). -/
def truncate (text : String) (maxLength : Nat) (from' : TruncationMode) : String :=
  if text.length ≤ maxLength then
    text
  else
    let indicator := "..."
    if maxLength ≤ indicator.length then
      indicator
    else
      match from' with
      | .start =>
          indicator ++ String.mk (text.toList.drop (text.length - (maxLength - indicator.length)))
      | .end' =>
          String.mk (text.toList.take (maxLength - indicator.length)) ++ indicator

/-- The effective delay in milliseconds computed at dispatcher construction:
`Math.max(0, Math.floor(Number(config.delay ?? 120))) * 1000`. -/
def effectiveDelayMs (delay : Option ℚ) : ℤ :=
  (max 0 ⌊delay.getD 120⌋) * 1000

/-- Outcome of one backend delivery attempt: the promise resolves, or rejects
with a reason (non-success status, transport error, or timeout abort). -/
inductive AttemptOutcome
  | success
  | rejected (reason : String)
deriving DecidableEq, Repr

/-- One enabled service: its diagnostic name and its delivery behaviour on a
given payload (the outcome of `service.send`). -/
structure ServiceDescriptor where
  name : String
  behavior : NotificationPayload → AttemptOutcome

/-- The results collected by `Promise.allSettled` in `sendToServices`: each
enabled service is invoked once, in order, on the payload. -/
def attemptResults (services : List ServiceDescriptor) (payload : NotificationPayload) :
    List (String × AttemptOutcome) :=
  services.map (fun s => (s.name, s.behavior payload))

/-- The `results.forEach` loop of `sendToServices`: every rejected attempt
produces one `logger.error` line of the form `"<name> failed: <reason>"`. -/
def failureLog (results : List (String × AttemptOutcome)) : List String :=
  results.filterMap (fun r =>
    match r.2 with
    | .rejected reason => some (r.1 ++ " failed: " ++ reason)
    | .success => none)

/-- `sendToServices` from src/dispatcher.ts: fan one payload out to every
enabled service; returns the settled attempt results and the error-log lines.
It never throws, for any combination of outcomes. -/
def sendToServices (services : List ServiceDescriptor) (payload : NotificationPayload) :
    List (String × AttemptOutcome) × List String :=
  if services.isEmpty then
    ([], [])
  else
    let results := attemptResults services payload
    (results, failureLog results)

/-- `IMMEDIATE_EVENTS = new Set(["error", "permission"])`. -/
def isImmediate : EventType → Bool
  | .error => true
  | .permission => true
  | _ => false

/-- `Map.get`: the value of the first (only) entry for the key. -/
def mapGet {α : Type} : List (EventType × α) → EventType → Option α
  | [], _ => none
  | (k1, v) :: rest, k => if k1 = k then some v else mapGet rest k

/-- `Map.set`: replace in place if the key is present, else append. -/
def mapSet {α : Type} : List (EventType × α) → EventType → α → List (EventType × α)
  | [], k, v => [(k, v)]
  | (k1, v1) :: rest, k, v =>
    if k1 = k then (k, v) :: rest else (k1, v1) :: mapSet rest k v

/-- `Map.delete`: remove the entry for the key. -/
def mapDelete {α : Type} (l : List (EventType × α)) (k : EventType) : List (EventType × α) :=
  l.filter (fun e => e.1 != k)

/-- One armed `setTimeout` handle: its id, the absolute time at which it
fires (installation time plus delay), and the payload captured by its
callback closure. -/
structure TimerEntry where
  id : Nat
  fireAt : Nat
  payload : NotificationPayload
deriving DecidableEq, Repr

/-- The mutable state owned by one dispatcher instance: the ambient clock
(`Date.now()`), the next fresh timer handle, the armed timers of the runtime,
the `pendingTimers` map (event type ↦ (timer id, payload)), and the
`lastImmediateTime` dedup map. -/
structure DispatcherState where
  now : Nat
  nextTimerId : Nat
  armedTimers : List TimerEntry
  pendingTimers : List (EventType × (Nat × NotificationPayload))
  lastImmediateTime : List (EventType × Nat)
deriving DecidableEq, Repr

/-- The state of a freshly constructed dispatcher: empty maps, no timers. -/
def initState : DispatcherState :=
  { now := 0
    nextTimerId := 0
    armedTimers := []
    pendingTimers := []
    lastImmediateTime := [] }

/-- `dispatch` from src/dispatcher.ts, at ambient time `s.now`. Returns the
successor state and the list of payloads fanned out synchronously by this call
(zero-delay and immediate paths); the delayable path arms a timer and fans out
nothing now. -/
def dispatch (delayMs : Nat) (payload : NotificationPayload) (s : DispatcherState) :
    DispatcherState × List NotificationPayload :=
  if delayMs = 0 then
    (s, [payload])
  else if isImmediate payload.eventType then
    let lastTime := (mapGet s.lastImmediateTime payload.eventType).getD 0
    if s.now - lastTime < 500 then
      (s, [])
    else
      ({ s with lastImmediateTime := mapSet s.lastImmediateTime payload.eventType s.now },
       [payload])
  else
    let s1 :=
      match mapGet s.pendingTimers payload.eventType with
      | some existing =>
          { s with
              armedTimers := s.armedTimers.filter (fun t => t.id != existing.1)
              pendingTimers := mapDelete s.pendingTimers payload.eventType }
      | none => s
    ({ s1 with
        nextTimerId := s1.nextTimerId + 1
        armedTimers := s1.armedTimers ++ [⟨s1.nextTimerId, s1.now + delayMs, payload⟩]
        pendingTimers := mapSet s1.pendingTimers payload.eventType (s1.nextTimerId, payload) },
     [])

/-- The event loop firing every due timer (fire time ≤ `now`) in creation
order. Each fired callback deletes its `pendingTimers` entry and fans out the
payload captured at installation time. Returns the surviving timers, the
updated pending map, and the fanned-out payloads in firing order. -/
def fireDue (now : Nat) :
    List TimerEntry → List (EventType × (Nat × NotificationPayload)) →
      List TimerEntry × List (EventType × (Nat × NotificationPayload)) × List NotificationPayload
  | [], pend => ([], pend, [])
  | t :: rest, pend =>
    if t.fireAt ≤ now then
      let r := fireDue now rest (mapDelete pend t.payload.eventType)
      (r.1, r.2.1, t.payload :: r.2.2)
    else
      let r := fireDue now rest pend
      (t :: r.1, r.2.1, r.2.2)

/-- Advance the ambient clock to `t` (never backwards) and let the event loop
fire every timer that has become due. -/
def advanceTo (t : Nat) (s : DispatcherState) : DispatcherState × List NotificationPayload :=
  let now := max s.now t
  let r := fireDue now s.armedTimers s.pendingTimers
  ({ s with now := now, armedTimers := r.1, pendingTimers := r.2.1 }, r.2.2)

/-- `flush` from src/dispatcher.ts: snapshot the values of `pendingTimers`,
clear the map, `clearTimeout` every snapshotted handle, then fan out every
snapshotted payload. -/
def flush (s : DispatcherState) : DispatcherState × List NotificationPayload :=
  let entries := s.pendingTimers.map (fun e => e.2)
  let ids := entries.map (fun e => e.1)
  ({ s with
      pendingTimers := []
      armedTimers := s.armedTimers.filter (fun t => ! ids.contains t.id) },
   entries.map (fun e => e.2))

/-- The observable actions driving one dispatcher: a `dispatch` call at the
current time, the clock advancing (firing due timers), and a `flush` call. -/
inductive Action
  | dispatch (payload : NotificationPayload)
  | advanceTo (t : Nat)
  | flush

/-- One action against the dispatcher state, yielding the fan-outs it causes. -/
def stepAction (delayMs : Nat) (s : DispatcherState) :
    Action → DispatcherState × List NotificationPayload
  | .dispatch payload => dispatch delayMs payload s
  | .advanceTo t => advanceTo t s
  | .flush => flush s

/-- Run a sequence of actions, collecting every fan-out in order. -/
def runActions (delayMs : Nat) (s : DispatcherState) :
    List Action → DispatcherState × List NotificationPayload
  | [] => (s, [])
  | a :: as =>
    let r1 := stepAction delayMs s a
    let r2 := runActions delayMs r1.1 as
    (r2.1, r1.2 ++ r2.2)

/-- A dispatcher state is reachable when some action sequence produces it from
the freshly constructed state. -/
def Reachable (delayMs : Nat) (s : DispatcherState) : Prop :=
  ∃ as : List Action, (runActions delayMs initState as).1 = s

/-! ### Association-list map lemmas -/

theorem mapGet_mapSet_self {α : Type} (l : List (EventType × α)) (k : EventType) (v : α) :
    mapGet (mapSet l k v) k = some v := by
  induction l with
  | nil => simp [mapSet, mapGet]
  | cons e rest ih =>
    obtain ⟨k1, v1⟩ := e
    by_cases h : k1 = k
    · simp [mapSet, h, mapGet]
    · simp [mapSet, h, mapGet, ih]

theorem mapGet_mapSet_ne {α : Type} (l : List (EventType × α)) (k k' : EventType) (v : α)
    (h : k ≠ k') : mapGet (mapSet l k v) k' = mapGet l k' := by
  induction l with
  | nil => simp [mapSet, mapGet, h]
  | cons e rest ih =>
    obtain ⟨k1, v1⟩ := e
    by_cases h1 : k1 = k
    · subst h1
      simp [mapSet, mapGet, h]
    · simp [mapSet, h1, mapGet, ih]

theorem mapGet_mapDelete_self {α : Type} (l : List (EventType × α)) (k : EventType) :
    mapGet (mapDelete l k) k = none := by
  induction l with
  | nil => rfl
  | cons e rest ih =>
    obtain ⟨k1, v1⟩ := e
    by_cases h : k1 = k
    · simpa [mapDelete, List.filter_cons, h] using ih
    · simpa [mapDelete, List.filter_cons, h, mapGet] using ih

theorem mapGet_mapDelete_ne {α : Type} (l : List (EventType × α)) (k k' : EventType)
    (h : k ≠ k') : mapGet (mapDelete l k) k' = mapGet l k' := by
  induction l with
  | nil => rfl
  | cons e rest ih =>
    obtain ⟨k1, v1⟩ := e
    by_cases h1 : k1 = k
    · subst h1
      have e1 : mapDelete ((k1, v1) :: rest) k1 = mapDelete rest k1 := by
        simp [mapDelete, List.filter_cons]
      rw [e1, ih]
      simp [mapGet, h]
    · have e1 : mapDelete ((k1, v1) :: rest) k = (k1, v1) :: mapDelete rest k := by
        simp [mapDelete, List.filter_cons, h1]
      rw [e1]
      by_cases h2 : k1 = k'
      · simp [mapGet, h2]
      · simp [mapGet, h2, ih]

theorem mapDelete_sublist {α : Type} (l : List (EventType × α)) (k : EventType) :
    List.Sublist (mapDelete l k) l :=
  List.filter_sublist l

theorem mem_mapDelete {α : Type} {l : List (EventType × α)} {k : EventType}
    {e : EventType × α} (h : e ∈ mapDelete l k) : e ∈ l ∧ e.1 ≠ k := by
  have := List.of_mem_filter h
  exact ⟨List.mem_of_mem_filter h, by simpa using this⟩

theorem mapGet_mem {α : Type} {l : List (EventType × α)} {k : EventType} {v : α}
    (h : mapGet l k = some v) : (k, v) ∈ l := by
  induction l with
  | nil => simp [mapGet] at h
  | cons e rest ih =>
    obtain ⟨k1, v1⟩ := e
    by_cases h1 : k1 = k
    · subst h1
      simp [mapGet] at h
      simp [h]
    · simp [mapGet, h1] at h
      exact List.mem_cons_of_mem _ (ih h)

theorem mapGet_eq_none_of_not_mem {α : Type} {l : List (EventType × α)} {k : EventType}
    (h : ∀ e ∈ l, e.1 ≠ k) : mapGet l k = none := by
  induction l with
  | nil => rfl
  | cons e rest ih =>
    obtain ⟨k1, v1⟩ := e
    have hk : k1 ≠ k := h _ (List.mem_cons_self _ _)
    simp [mapGet, hk]
    exact ih (fun e he => h e (List.mem_cons_of_mem _ he))

theorem not_mem_keys_of_mapGet_none {α : Type} {l : List (EventType × α)} {k : EventType}
    (h : mapGet l k = none) : ∀ e ∈ l, e.1 ≠ k := by
  induction l with
  | nil => simp
  | cons e rest ih =>
    obtain ⟨k1, v1⟩ := e
    by_cases h1 : k1 = k
    · simp [mapGet, h1] at h
    · simp [mapGet, h1] at h
      intro e' he'
      rcases List.mem_cons.mp he' with h2 | h2
      · subst h2; exact h1
      · exact ih h e' h2

theorem mapSet_of_get_none {α : Type} {l : List (EventType × α)} {k : EventType}
    (v : α) (h : mapGet l k = none) : mapSet l k v = l ++ [(k, v)] := by
  induction l with
  | nil => rfl
  | cons e rest ih =>
    obtain ⟨k1, v1⟩ := e
    by_cases h1 : k1 = k
    · simp [mapGet, h1] at h
    · simp [mapGet, h1] at h
      simp [mapSet, h1, ih h]

theorem mapGet_filter_of_key {α : Type} (p : EventType × α → Bool)
    (l : List (EventType × α)) (k : EventType) (h : ∀ e ∈ l, e.1 = k → p e = true) :
    mapGet (l.filter p) k = mapGet l k := by
  induction l with
  | nil => rfl
  | cons e rest ih =>
    obtain ⟨k1, v1⟩ := e
    have ih' := ih (fun e he hk => h e (List.mem_cons_of_mem _ he) hk)
    by_cases h1 : k1 = k
    · subst h1
      have hp : p (k1, v1) = true := h _ (List.mem_cons_self _ _) rfl
      simp [List.filter_cons, hp, mapGet, ih']
    · by_cases hp : p (k1, v1) = true
      · simp [List.filter_cons, hp, mapGet, h1, ih']
      · simp only [Bool.not_eq_true] at hp
        simp [List.filter_cons, hp, mapGet, h1, ih']

/-! ### Characterisation of the event loop (`fireDue`) -/

/-- The event categories of the timers that fire at time `now`. -/
def firedCats (now : Nat) (ts : List TimerEntry) : List EventType :=
  (ts.filter (fun t => decide (t.fireAt ≤ now))).map (fun t => t.payload.eventType)

theorem fireDue_timers (now : Nat) (ts : List TimerEntry)
    (pend : List (EventType × (Nat × NotificationPayload))) :
    (fireDue now ts pend).1 = ts.filter (fun t => ! decide (t.fireAt ≤ now)) := by
  induction ts generalizing pend with
  | nil => rfl
  | cons t rest ih =>
    by_cases h : t.fireAt ≤ now
    · simp [fireDue, h, List.filter_cons, ih]
    · simp [fireDue, h, List.filter_cons, ih]

theorem fireDue_out (now : Nat) (ts : List TimerEntry)
    (pend : List (EventType × (Nat × NotificationPayload))) :
    (fireDue now ts pend).2.2 =
      (ts.filter (fun t => decide (t.fireAt ≤ now))).map (fun t => t.payload) := by
  induction ts generalizing pend with
  | nil => rfl
  | cons t rest ih =>
    by_cases h : t.fireAt ≤ now
    · simp [fireDue, h, List.filter_cons, ih]
    · simp [fireDue, h, List.filter_cons, ih]

theorem fireDue_pend (now : Nat) (ts : List TimerEntry)
    (pend : List (EventType × (Nat × NotificationPayload))) :
    (fireDue now ts pend).2.1 =
      pend.filter (fun e => ! (firedCats now ts).contains e.1) := by
  induction ts generalizing pend with
  | nil => simp [fireDue, firedCats]
  | cons t rest ih =>
    by_cases h : t.fireAt ≤ now
    · have e1 : (fireDue now (t :: rest) pend).2.1
          = (fireDue now rest (mapDelete pend t.payload.eventType)).2.1 := by
        simp [fireDue, h]
      have e2 : firedCats now (t :: rest) = t.payload.eventType :: firedCats now rest := by
        simp [firedCats, List.filter_cons, h]
      rw [e1, ih, mapDelete, List.filter_filter, e2]
      refine List.filter_congr ?_
      intro e he
      simp only [List.contains_cons, Bool.not_or, bne]
      exact Bool.and_comm _ _
    · have e1 : (fireDue now (t :: rest) pend).2.1 = (fireDue now rest pend).2.1 := by
        simp [fireDue, h]
      have e2 : firedCats now (t :: rest) = firedCats now rest := by
        simp [firedCats, List.filter_cons, h]
      rw [e1, ih, e2]

/-! ### The scheduler invariant -/

/-- The correspondence between the armed timers and the `pendingTimers` map:
keys are unique, every entry's payload belongs to its key, every armed timer is
recorded in the map under its payload's category with its own handle and
payload, every map entry owns a live armed timer, and timer handles are
unique. -/
structure MapInv (timers : List TimerEntry)
    (pend : List (EventType × (Nat × NotificationPayload))) : Prop where
  keysNodup : (pend.map (fun e => e.1)).Nodup
  keyMatch : ∀ e ∈ pend, (e.2.2).eventType = e.1
  timerToEntry : ∀ t ∈ timers, mapGet pend t.payload.eventType = some (t.id, t.payload)
  entryToTimer : ∀ e ∈ pend, ∃ t ∈ timers, t.id = e.2.1 ∧ t.payload = e.2.2
  idsNodup : (timers.map (fun t => t.id)).Nodup

/-- The full dispatcher-state invariant: the timer/map correspondence, plus
freshness of the next timer handle. -/
def Inv (s : DispatcherState) : Prop :=
  MapInv s.armedTimers s.pendingTimers ∧ ∀ t ∈ s.armedTimers, t.id < s.nextTimerId

theorem MapInv.timer_inj {ts : List TimerEntry}
    {pend : List (EventType × (Nat × NotificationPayload))} (h : MapInv ts pend) :
    ∀ t1 ∈ ts, ∀ t2 ∈ ts, t1.payload.eventType = t2.payload.eventType → t1 = t2 := by
  intro t1 h1 t2 h2 hcat
  have e1 := h.timerToEntry t1 h1
  have e2 := h.timerToEntry t2 h2
  rw [hcat] at e1
  have hs := Option.some.inj (e1.symm.trans e2)
  have hid : t1.id = t2.id := congrArg Prod.fst hs
  exact List.inj_on_of_nodup_map h.idsNodup h1 h2 hid

theorem MapInv.entry_inj {ts : List TimerEntry}
    {pend : List (EventType × (Nat × NotificationPayload))} (h : MapInv ts pend) :
    ∀ e1 ∈ pend, ∀ e2 ∈ pend, e1.1 = e2.1 → e1 = e2 :=
  fun _ h1 _ h2 hk => List.inj_on_of_nodup_map h.keysNodup h1 h2 hk

/-- Cancelling the timer recorded for category `c` (as `dispatch` does on a
duplicate delayable submission) preserves the correspondence. -/
theorem mapInv_cancel {ts : List TimerEntry}
    {pend : List (EventType × (Nat × NotificationPayload))} (h : MapInv ts pend)
    {c : EventType} {tid : Nat} {q : NotificationPayload}
    (hget : mapGet pend c = some (tid, q)) :
    MapInv (ts.filter (fun t => t.id != tid)) (mapDelete pend c) := by
  constructor
  · exact h.keysNodup.sublist (List.Sublist.map _ (mapDelete_sublist pend c))
  · exact fun e he => h.keyMatch e (mem_mapDelete he).1
  · intro t ht
    obtain ⟨htm, hpred⟩ := List.mem_filter.mp ht
    have hid : t.id ≠ tid := by simpa using hpred
    have hcat : c ≠ t.payload.eventType := by
      intro hc
      have h1 := h.timerToEntry t htm
      rw [← hc, hget] at h1
      exact hid (congrArg Prod.fst (Option.some.inj h1)).symm
    rw [mapGet_mapDelete_ne pend c _ hcat]
    exact h.timerToEntry t htm
  · intro e he
    obtain ⟨hep, hek⟩ := mem_mapDelete he
    obtain ⟨t, htm, hid, hpl⟩ := h.entryToTimer e hep
    refine ⟨t, List.mem_filter.mpr ⟨htm, ?_⟩, hid, hpl⟩
    have hqmem : (c, (tid, q)) ∈ pend := mapGet_mem hget
    obtain ⟨t', ht'm, hid', hpl'⟩ := h.entryToTimer _ hqmem
    simp only [bne_iff_ne, ne_eq, decide_eq_true_eq]
    intro heq
    have htt : t = t' := List.inj_on_of_nodup_map h.idsNodup htm ht'm (by rw [heq, hid'])
    have h1 : e.1 = c := by
      have hkm := h.keyMatch e hep
      have hkq := h.keyMatch _ hqmem
      rw [← hkm, ← hpl, htt, hpl']
      exact hkq
    exact hek h1
  · exact h.idsNodup.sublist (List.Sublist.map _ (List.filter_sublist ts))

/-- Installing a fresh timer for a category absent from the map (as `dispatch`
does after the cancel step) preserves the correspondence. -/
theorem mapInv_install {ts : List TimerEntry}
    {pend : List (EventType × (Nat × NotificationPayload))} (h : MapInv ts pend)
    {n : Nat} (hfresh : ∀ t ∈ ts, t.id < n) (p : NotificationPayload) (fireAt : Nat)
    (hget : mapGet pend p.eventType = none) :
    MapInv (ts ++ [⟨n, fireAt, p⟩]) (mapSet pend p.eventType (n, p)) := by
  have hkeys := not_mem_keys_of_mapGet_none hget
  constructor
  · rw [mapSet_of_get_none _ hget, List.map_append, List.nodup_append]
    refine ⟨h.keysNodup, List.nodup_singleton _, ?_⟩
    intro a ha hb
    simp only [List.map_cons, List.map_nil, List.mem_singleton] at hb
    obtain ⟨e, hem, hea⟩ := List.mem_map.mp ha
    exact hkeys e hem (hea.trans hb)
  · intro e he
    rw [mapSet_of_get_none _ hget] at he
    rcases List.mem_append.mp he with h1 | h1
    · exact h.keyMatch e h1
    · simp only [List.mem_singleton] at h1
      subst h1
      rfl
  · intro t ht
    rcases List.mem_append.mp ht with h1 | h1
    · have hcat : p.eventType ≠ t.payload.eventType := by
        intro hc
        have h2 := h.timerToEntry t h1
        rw [← hc, hget] at h2
        exact Option.noConfusion h2
      rw [mapGet_mapSet_ne pend _ _ _ hcat]
      exact h.timerToEntry t h1
    · simp only [List.mem_singleton] at h1
      subst h1
      exact mapGet_mapSet_self pend p.eventType (n, p)
  · intro e he
    rw [mapSet_of_get_none _ hget] at he
    rcases List.mem_append.mp he with h1 | h1
    · obtain ⟨t, htm, hid, hpl⟩ := h.entryToTimer e h1
      exact ⟨t, List.mem_append_left _ htm, hid, hpl⟩
    · simp only [List.mem_singleton] at h1
      subst h1
      exact ⟨⟨n, fireAt, p⟩, List.mem_append_right _ (List.mem_singleton_self _), rfl, rfl⟩
  · rw [List.map_append, List.nodup_append]
    refine ⟨h.idsNodup, List.nodup_singleton _, ?_⟩
    intro a ha hb
    simp only [List.map_cons, List.map_nil, List.mem_singleton] at hb
    obtain ⟨t, htm, hta⟩ := List.mem_map.mp ha
    have h2 := hfresh t htm
    have h3 : t.id = n := hta.trans hb
    omega

theorem mapInv_nil : MapInv [] [] := by
  constructor <;> simp

/-- The event loop firing every due timer preserves the correspondence. -/
theorem mapInv_fire (now : Nat) {ts : List TimerEntry}
    {pend : List (EventType × (Nat × NotificationPayload))} (hm : MapInv ts pend) :
    MapInv (ts.filter (fun t => ! decide (t.fireAt ≤ now)))
      (pend.filter (fun e => ! (firedCats now ts).contains e.1)) := by
  constructor
  · exact hm.keysNodup.sublist (List.Sublist.map _ (List.filter_sublist pend))
  · exact fun e he => hm.keyMatch e (List.mem_of_mem_filter he)
  · intro t ht
    obtain ⟨htm, hpred⟩ := List.mem_filter.mp ht
    have hnotdue : ¬ t.fireAt ≤ now := by simpa using hpred
    have hnotfired : t.payload.eventType ∉ firedCats now ts := by
      intro hmem
      obtain ⟨v, hvm, hvc⟩ := List.mem_map.mp hmem
      obtain ⟨hvts, hvdue⟩ := List.mem_filter.mp hvm
      have hvt : v = t := hm.timer_inj v hvts t htm hvc
      rw [hvt] at hvdue
      exact hnotdue (by simpa using hvdue)
    rw [mapGet_filter_of_key]
    · exact hm.timerToEntry t htm
    · intro e hem hek
      have hc : (firedCats now ts).contains e.1 = false := by
        cases hcc : (firedCats now ts).contains e.1
        · rfl
        · exact absurd (hek ▸ List.elem_iff.mp hcc) hnotfired
      rw [hc]
      rfl
  · intro e he
    obtain ⟨hep, hpred⟩ := List.mem_filter.mp he
    have hnf : e.1 ∉ firedCats now ts := by simpa using hpred
    obtain ⟨t, htm, hid, hpl⟩ := hm.entryToTimer e hep
    refine ⟨t, List.mem_filter.mpr ⟨htm, ?_⟩, hid, hpl⟩
    have hnd : ¬ t.fireAt ≤ now := by
      intro hdue
      apply hnf
      refine List.mem_map.mpr ⟨t, List.mem_filter.mpr ⟨htm, by simpa using hdue⟩, ?_⟩
      rw [hpl]
      exact hm.keyMatch e hep
    simpa using hnd
  · exact hm.idsNodup.sublist (List.Sublist.map _ (List.filter_sublist ts))

theorem inv_dispatch (delayMs : Nat) (p : NotificationPayload) (s : DispatcherState)
    (h : Inv s) : Inv (dispatch delayMs p s).1 := by
  obtain ⟨hm, hf⟩ := h
  by_cases h0 : delayMs = 0
  · simpa [dispatch, h0] using ⟨hm, hf⟩
  · cases hi : isImmediate p.eventType with
    | true =>
      by_cases hdrop : s.now - (mapGet s.lastImmediateTime p.eventType).getD 0 < 500
      · simpa [dispatch, h0, hi, hdrop] using ⟨hm, hf⟩
      · simp only [dispatch, h0, if_false, hi, if_true, hdrop]
        exact ⟨hm, hf⟩
    | false =>
      rcases hget : mapGet s.pendingTimers p.eventType with _ | e
      · have hmi := mapInv_install (n := s.nextTimerId) hm hf p (s.now + delayMs) hget
        simp only [dispatch, h0, if_false, hi, Bool.false_eq_true, hget]
        refine ⟨hmi, ?_⟩
        intro t ht
        rcases List.mem_append.mp ht with h1 | h1
        · exact Nat.lt_succ_of_lt (hf t h1)
        · simp only [List.mem_singleton] at h1
          rw [h1]
          exact Nat.lt_succ_self _
      · obtain ⟨tid, q⟩ := e
        have hmc := mapInv_cancel hm hget
        have hgd : mapGet (mapDelete s.pendingTimers p.eventType) p.eventType = none :=
          mapGet_mapDelete_self _ _
        have hfc : ∀ t ∈ s.armedTimers.filter (fun t => t.id != tid), t.id < s.nextTimerId :=
          fun t ht => hf t (List.mem_of_mem_filter ht)
        have hmi := mapInv_install (n := s.nextTimerId) hmc hfc p (s.now + delayMs) hgd
        simp only [dispatch, h0, if_false, hi, Bool.false_eq_true, hget]
        refine ⟨hmi, ?_⟩
        intro t ht
        rcases List.mem_append.mp ht with h1 | h1
        · exact Nat.lt_succ_of_lt (hfc t h1)
        · simp only [List.mem_singleton] at h1
          rw [h1]
          exact Nat.lt_succ_self _

theorem inv_advanceTo (tt : Nat) (s : DispatcherState) (h : Inv s) : Inv (advanceTo tt s).1 := by
  obtain ⟨hm, hf⟩ := h
  refine ⟨?_, ?_⟩
  · show MapInv (fireDue (max s.now tt) s.armedTimers s.pendingTimers).1
      (fireDue (max s.now tt) s.armedTimers s.pendingTimers).2.1
    rw [fireDue_timers, fireDue_pend]
    exact mapInv_fire (max s.now tt) hm
  · intro t ht
    have ht' : t ∈ (fireDue (max s.now tt) s.armedTimers s.pendingTimers).1 := ht
    rw [fireDue_timers] at ht'
    exact hf t (List.mem_of_mem_filter ht')

theorem flush_armed_nil (s : DispatcherState) (hm : MapInv s.armedTimers s.pendingTimers) :
    (flush s).1.armedTimers = [] := by
  show s.armedTimers.filter _ = []
  rw [List.filter_eq_nil_iff]
  intro t ht
  have hget := hm.timerToEntry t ht
  have hmem : (t.payload.eventType, (t.id, t.payload)) ∈ s.pendingTimers := mapGet_mem hget
  simp only [Bool.not_eq_true', Bool.not_eq_false]
  refine List.elem_iff.mpr ?_
  refine List.mem_map.mpr ⟨(t.id, t.payload), ?_, rfl⟩
  exact List.mem_map.mpr ⟨_, hmem, rfl⟩

theorem inv_flush (s : DispatcherState) (h : Inv s) : Inv (flush s).1 := by
  obtain ⟨hm, hf⟩ := h
  have ha := flush_armed_nil s hm
  refine ⟨?_, ?_⟩
  · rw [ha]
    exact mapInv_nil
  · rw [ha]
    simp

theorem inv_stepAction (delayMs : Nat) (s : DispatcherState) (a : Action) (h : Inv s) :
    Inv (stepAction delayMs s a).1 := by
  cases a with
  | dispatch p => exact inv_dispatch delayMs p s h
  | advanceTo t => exact inv_advanceTo t s h
  | flush => exact inv_flush s h

theorem inv_initState : Inv initState :=
  ⟨mapInv_nil, by simp [initState]⟩

theorem inv_runActions (delayMs : Nat) (s : DispatcherState) (as : List Action) (h : Inv s) :
    Inv (runActions delayMs s as).1 := by
  induction as generalizing s with
  | nil => exact h
  | cons a as ih => exact ih _ (inv_stepAction delayMs s a h)

/-- Every reachable dispatcher state satisfies the invariant. -/
theorem reachable_inv {delayMs : Nat} {s : DispatcherState} (h : Reachable delayMs s) :
    Inv s := by
  obtain ⟨as, has⟩ := h
  rw [← has]
  exact inv_runActions delayMs initState as inv_initState

/-! ### Shared helpers for the claim theorems -/

theorem toList_append (a b : String) : (a ++ b).toList = a.toList ++ b.toList := by
  cases a
  cases b
  rfl

theorem length_append (a b : String) : (a ++ b).length = a.length + b.length := by
  cases a with
  | mk la => cases b with
    | mk lb => exact List.length_append la lb

/-- A fixed payload used to instantiate theorems at concrete inputs. -/
def samplePayload (e : EventType) (m : String) : NotificationPayload :=
  { eventType := e
    title := "t"
    message := m
    projectName := none
    timestamp := 0
    sessionID := none
    elapsedSeconds := none }

/-! ### Claim theorems -/

/-- C5: with the configured delay equal to zero, every `dispatch` call of every
event category (including the immediate categories, with no 500 ms dedup drop)
fans out that call's payload at once, and leaves the state untouched: no
pending entry or timer is ever installed.  The fan-out being part of the same
step models `await sendToServices(payload); return`. -/
theorem zero_delay_dispatch_immediate (p : NotificationPayload) (s : DispatcherState) :
    dispatch 0 p s = (s, [p]) :=
  rfl

/-- C7: `truncate` is total (a Lean function); text no longer than `maxLength`
is returned unchanged; longer text with `maxLength ≤ 3` yields the bare
3-character indicator; otherwise the result has length exactly `maxLength`,
with direction `end` keeping the first `maxLength - 3` characters before the
indicator, and direction `start` keeping the last `maxLength - 3` characters
after the indicator. -/
theorem truncate_spec (text : String) (maxLength : Nat) (mode : TruncationMode) :
    (text.length ≤ maxLength → truncate text maxLength mode = text) ∧
    (maxLength < text.length → maxLength ≤ 3 → truncate text maxLength mode = "...") ∧
    (maxLength < text.length → 3 < maxLength →
      (truncate text maxLength TruncationMode.end').length = maxLength ∧
      text.toList.take (maxLength - 3) <+: (truncate text maxLength TruncationMode.end').toList ∧
      "...".toList <:+ (truncate text maxLength TruncationMode.end').toList ∧
      (truncate text maxLength TruncationMode.start).length = maxLength ∧
      "...".toList <+: (truncate text maxLength TruncationMode.start).toList ∧
      text.toList.drop (text.length - (maxLength - 3)) <:+
        (truncate text maxLength TruncationMode.start).toList) := by
  have h3 : ("..." : String).length = 3 := by rfl
  refine ⟨?_, ?_, ?_⟩
  · intro h
    simp [truncate, h]
  · intro h1 h2
    have hn : ¬ text.length ≤ maxLength := by omega
    simp [truncate, hn, h3, h2]
  · intro h1 h2
    have hn : ¬ text.length ≤ maxLength := by omega
    have hn2 : ¬ maxLength ≤ 3 := by omega
    have hend : truncate text maxLength TruncationMode.end'
        = String.mk (text.toList.take (maxLength - 3)) ++ "..." := by
      simp [truncate, hn, h3, hn2]
    have hstart : truncate text maxLength TruncationMode.start
        = "..." ++ String.mk (text.toList.drop (text.length - (maxLength - 3))) := by
      simp [truncate, hn, h3, hn2]
    have hlist : text.toList.length = text.length := rfl
    refine ⟨?_, ?_, ?_, ?_, ?_, ?_⟩
    · rw [hend, length_append, h3]
      have hl : (String.mk (text.toList.take (maxLength - 3))).length = maxLength - 3 := by
        show (text.toList.take (maxLength - 3)).length = maxLength - 3
        rw [List.length_take, hlist]
        omega
      rw [hl]
      omega
    · rw [hend, toList_append]
      exact List.prefix_append _ _
    · rw [hend, toList_append]
      exact List.suffix_append _ _
    · rw [hstart, length_append, h3]
      have hl : (String.mk (text.toList.drop (text.length - (maxLength - 3)))).length
          = maxLength - 3 := by
        show (text.toList.drop (text.length - (maxLength - 3))).length = maxLength - 3
        rw [List.length_drop, hlist]
        omega
      rw [hl]
      omega
    · rw [hstart, toList_append]
      exact List.prefix_append _ _
    · rw [hstart, toList_append]
      exact List.suffix_append _ _

/-- Witness for C7: a concrete short text is returned unchanged, and a
10-character text truncated to 7 has length 7 and ends with the indicator. -/
theorem truncate_spec_witness :
    truncate "abcdef" 10 TruncationMode.end' = "abcdef" ∧
    (truncate "abcdefghij" 7 TruncationMode.end').length = 7 ∧
    "...".toList <:+ (truncate "abcdefghij" 7 TruncationMode.end').toList := by
  refine ⟨(truncate_spec "abcdef" 10 TruncationMode.end').1 (by decide), ?_, ?_⟩
  · exact ((truncate_spec "abcdefghij" 7 TruncationMode.end').2.2 (by decide) (by decide)).1
  · exact ((truncate_spec "abcdefghij" 7 TruncationMode.end').2.2 (by decide) (by decide)).2.2.1

/-- C8 counterexample: the configured delay `3/2` is fractional (not an
integer), yet the effective delay computed at construction is 1000 ms, not 0:
`Math.floor` floors fractional values instead of clamping them to 0. -/
theorem delay_clamp_counterexample :
    (¬ ∃ n : ℤ, (3 / 2 : ℚ) = (n : ℚ)) ∧ effectiveDelayMs (some (3 / 2 : ℚ)) = 1000 := by
  constructor
  · rintro ⟨n, hn⟩
    have h1 : ⌊(3 / 2 : ℚ)⌋ = n := by rw [hn]; exact Int.floor_intCast n
    have h2 : ⌊(3 / 2 : ℚ)⌋ = 1 := by norm_num
    rw [h2] at h1
    rw [← h1] at hn
    norm_num at hn
  · show ((max 0 ⌊((3 : ℚ) / 2)⌋) * 1000 : ℤ) = 1000
    norm_num

/-- C8 (amended): every configured delay value below 1 — in particular every
negative value and every fractional value below 1 — yields effective delay 0;
a fractional value at or above 1 is floored to the next lower whole second
(times 1000 ms), not clamped to 0. -/
theorem delay_clamp_amended (q : ℚ) :
    (q < 1 → effectiveDelayMs (some q) = 0) ∧
    (1 ≤ q → effectiveDelayMs (some q) = ⌊q⌋ * 1000) := by
  constructor
  · intro h
    have h1 : ⌊q⌋ ≤ 0 := by
      have := Int.floor_lt.mpr (show q < ((1 : ℤ) : ℚ) by exact_mod_cast h)
      omega
    show ((max 0 ⌊q⌋) * 1000 : ℤ) = 0
    rw [max_eq_left h1]
    ring
  · intro h
    have h1 : 0 ≤ ⌊q⌋ := by
      have := Int.le_floor.mpr (show ((1 : ℤ) : ℚ) ≤ q by exact_mod_cast h)
      omega
    show ((max 0 ⌊q⌋) * 1000 : ℤ) = ⌊q⌋ * 1000
    rw [max_eq_right h1]

/-- Witness for the amended C8: delay `1/2` gives 0 ms; delay `5/2` gives
2000 ms. -/
theorem delay_clamp_amended_witness :
    effectiveDelayMs (some (1 / 2 : ℚ)) = 0 ∧ effectiveDelayMs (some (5 / 2 : ℚ)) = 2000 := by
  constructor
  · exact (delay_clamp_amended (1 / 2)).1 (by norm_num)
  · have h := (delay_clamp_amended (5 / 2)).2 (by norm_num)
    rw [h]
    norm_num

/-- C9: a `dispatch` of an immediate category falling inside the 500 ms dedup
window returns with the state entirely unchanged and fans nothing out: the
pending map is untouched and the dedup clock keeps the timestamp of the last
accepted submission, so the window is measured from the last accepted
submission, not the last attempted one. -/
theorem immediate_drop_frame (delayMs : Nat) (hd : delayMs ≠ 0) (p : NotificationPayload)
    (hImm : isImmediate p.eventType = true) (s : DispatcherState)
    (hdrop : s.now - (mapGet s.lastImmediateTime p.eventType).getD 0 < 500) :
    dispatch delayMs p s = (s, []) := by
  simp [dispatch, hd, hImm, hdrop]

/-- A concrete state whose `error` dedup clock was last set at time 400, seen
at time 700. -/
def dropState : DispatcherState :=
  { now := 700
    nextTimerId := 0
    armedTimers := []
    pendingTimers := []
    lastImmediateTime := [(EventType.error, 400)] }

/-- Witness for C9: at time 700, an `error` submission 300 ms after an accepted
one at time 400 is dropped without touching the state. -/
theorem immediate_drop_frame_witness :
    dispatch 120000 (samplePayload EventType.error "e") dropState = (dropState, []) :=
  immediate_drop_frame 120000 (by decide) (samplePayload EventType.error "e") (by decide)
    dropState (by decide)

/-- C6: within one fan-out, every enabled backend is invoked exactly once, in
order; each attempt's outcome is a function of that backend's descriptor alone,
so one backend's failure cannot alter another's attempt or outcome; every
rejected attempt (including a timeout abort) is logged with the backend's name
and reason; with zero enabled backends the fan-out is a no-op.  `sendToServices`
(hence `dispatch`/`flush`) is a total Lean function: no combination of
outcomes makes it raise. -/
theorem fanout_isolation (services : List ServiceDescriptor) (payload : NotificationPayload) :
    (sendToServices services payload).1.length = services.length ∧
    (∀ i : Nat, (sendToServices services payload).1[i]?
        = (services[i]?).map (fun sv => (sv.name, sv.behavior payload))) ∧
    (∀ name reason,
        (name, AttemptOutcome.rejected reason) ∈ (sendToServices services payload).1 →
        (name ++ " failed: " ++ reason) ∈ (sendToServices services payload).2) ∧
    (sendToServices services payload).2 = failureLog (attemptResults services payload) ∧
    sendToServices [] payload = ([], []) := by
  by_cases h : services.isEmpty
  · have hnil : services = [] := List.isEmpty_iff.mp h
    subst hnil
    refine ⟨rfl, ?_, ?_, rfl, rfl⟩
    · intro i
      simp [sendToServices]
    · intro name reason hmem
      simp [sendToServices] at hmem
  · have hsend : sendToServices services payload
        = (attemptResults services payload, failureLog (attemptResults services payload)) := by
      simp [sendToServices, h]
    rw [hsend]
    refine ⟨?_, ?_, ?_, rfl, rfl⟩
    · simp [attemptResults]
    · intro i
      simp [attemptResults]
    · intro name reason hmem
      exact List.mem_filterMap.mpr ⟨(name, AttemptOutcome.rejected reason), hmem, rfl⟩

/-- A backend that always rejects, and one that always succeeds. -/
def svcFail : ServiceDescriptor :=
  { name := "Pushover", behavior := fun _ => AttemptOutcome.rejected "HTTP 500" }

def svcOk : ServiceDescriptor :=
  { name := "Slack", behavior := fun _ => AttemptOutcome.success }

/-- Witness for C6: with one failing and one succeeding backend, both are
attempted, the succeeding one's outcome is unaffected, and the failure is
logged with name and reason. -/
theorem fanout_isolation_witness :
    (sendToServices [svcFail, svcOk] (samplePayload EventType.complete "m")).1.length = 2 ∧
    (sendToServices [svcFail, svcOk] (samplePayload EventType.complete "m")).1[1]?
      = some ("Slack", AttemptOutcome.success) ∧
    "Pushover failed: HTTP 500"
      ∈ (sendToServices [svcFail, svcOk] (samplePayload EventType.complete "m")).2 := by
  have h := fanout_isolation [svcFail, svcOk] (samplePayload EventType.complete "m")
  refine ⟨h.1, ?_, ?_⟩
  · rw [h.2.1 1]
    rfl
  · exact h.2.2.1 "Pushover" "HTTP 500" (by decide)

/-- C4: with a positive configured delay, two `dispatch` calls for the same
immediate category less than 500 ms apart fan out exactly once (the second is
silently dropped), while the same two calls at least 500 ms apart fan out
twice; an accepted immediate submission is fanned out in the same step (no
delay wait) and records its time in the dedup clock. -/
theorem immediate_dedup (delayMs : Nat) (hd : delayMs ≠ 0) (c : EventType)
    (hc : isImmediate c = true) (p1 p2 : NotificationPayload)
    (h1 : p1.eventType = c) (h2 : p2.eventType = c) (t1 t2 : Nat)
    (h500 : 500 ≤ t1) (hle : t1 ≤ t2) :
    (runActions delayMs initState
        [Action.advanceTo t1, Action.dispatch p1, Action.advanceTo t2, Action.dispatch p2]).2
      = (if t2 - t1 < 500 then [p1] else [p1, p2]) ∧
    (runActions delayMs initState [Action.advanceTo t1, Action.dispatch p1]).2 = [p1] ∧
    mapGet (runActions delayMs initState
        [Action.advanceTo t1, Action.dispatch p1]).1.lastImmediateTime c = some t1 := by
  have hnd : ¬ (t1 - 0 < 500) := by omega
  have hnd' : ¬ (t1 < 500) := by omega
  have hmax0 : max 0 t1 = t1 := Nat.max_eq_right (Nat.zero_le t1)
  have hmax1 : max t1 t2 = t2 := Nat.max_eq_right hle
  by_cases hdd : t2 - t1 < 500 <;>
    simp [runActions, stepAction, advanceTo, dispatch, fireDue, initState, mapGet, mapSet,
      hd, hc, h1, h2, hdd, hnd, hnd', hmax0, hmax1]

/-- Witness for C4: concrete `permission` submissions at times 600 and 900
(300 ms apart) fan out once; at times 600 and 1200 they fan out twice. -/
theorem immediate_dedup_witness :
    (runActions 120000 initState
        [Action.advanceTo 600, Action.dispatch (samplePayload EventType.permission "a"),
         Action.advanceTo 900, Action.dispatch (samplePayload EventType.permission "b")]).2
      = [samplePayload EventType.permission "a"] ∧
    (runActions 120000 initState
        [Action.advanceTo 600, Action.dispatch (samplePayload EventType.permission "a"),
         Action.advanceTo 1200, Action.dispatch (samplePayload EventType.permission "b")]).2
      = [samplePayload EventType.permission "a", samplePayload EventType.permission "b"] := by
  constructor
  · have h := (immediate_dedup 120000 (by decide) EventType.permission (by decide)
      (samplePayload EventType.permission "a") (samplePayload EventType.permission "b")
      rfl rfl 600 900 (by decide) (by decide)).1
    simpa using h
  · have h := (immediate_dedup 120000 (by decide) EventType.permission (by decide)
      (samplePayload EventType.permission "a") (samplePayload EventType.permission "b")
      rfl rfl 600 1200 (by decide) (by decide)).1
    simpa using h

/-- C10: when the configuration omits the delay setting (`config.delay` is
`undefined`), the effective delay at construction is 120 s = 120000 ms, so
delayed coalescing is on by default rather than immediate delivery. -/
theorem default_delay_is_two_minutes :
    effectiveDelayMs none = 120000 ∧ effectiveDelayMs none ≠ 0 := by
  constructor
  · show ((max 0 ⌊(120 : ℚ)⌋) * 1000 : ℤ) = 120000
    norm_num
  · show ((max 0 ⌊(120 : ℚ)⌋) * 1000 : ℤ) ≠ 0
    norm_num

/-- C2: `flush` snapshots and clears the whole pending map and cancels every
snapshotted timer before any delivery (the returned fan-outs are computed from
the snapshot while the successor state is already drained); every snapshotted
payload is fanned out exactly once; with no pending entries it is a no-op
returning the state unchanged; a second `flush` delivers nothing; and after a
`flush`, advancing the clock arbitrarily far (in particular past the original
delay) fires nothing for the drained categories. -/
theorem flush_spec (delayMs : Nat) (s : DispatcherState) (hs : Reachable delayMs s) :
    (flush s).2 = s.pendingTimers.map (fun e => e.2.2) ∧
    (flush s).1.pendingTimers = [] ∧
    (flush s).1.armedTimers = [] ∧
    (s.pendingTimers = [] → flush s = (s, [])) ∧
    (flush (flush s).1).2 = [] ∧
    (∀ t : Nat, (advanceTo t (flush s).1).2 = []) := by
  have hInv := reachable_inv hs
  have ha := flush_armed_nil s hInv.1
  refine ⟨?_, rfl, ha, ?_, rfl, ?_⟩
  · show ((s.pendingTimers.map (fun e => e.2)).map (fun e => e.2))
      = s.pendingTimers.map (fun e => e.2.2)
    rw [List.map_map]
    rfl
  · intro hp
    obtain ⟨n0, n1, arm, pend, li⟩ := s
    simp only at hp
    subst hp
    simp [flush]
  · intro t
    show (fireDue (max (flush s).1.now t) (flush s).1.armedTimers
      (flush s).1.pendingTimers).2.2 = []
    rw [ha]
    rfl

/-- The reachable state holding two pending delayable entries, used to witness
C2. -/
def twoPendingState : DispatcherState :=
  (runActions 120000 initState
    [Action.dispatch (samplePayload EventType.complete "a"),
     Action.dispatch (samplePayload EventType.question "q")]).1

/-- Witness for C2: flushing a state with two pending entries delivers both
exactly once, empties map and timers, a second flush delivers nothing, and a
later clock advance past the delay fires nothing. -/
theorem flush_spec_witness :
    (flush twoPendingState).2
      = [samplePayload EventType.complete "a", samplePayload EventType.question "q"] ∧
    (flush twoPendingState).1.armedTimers = [] ∧
    (flush (flush twoPendingState).1).2 = [] ∧
    (advanceTo 999999999 (flush twoPendingState).1).2 = [] := by
  have h := flush_spec 120000 twoPendingState
    ⟨[Action.dispatch (samplePayload EventType.complete "a"),
      Action.dispatch (samplePayload EventType.question "q")], rfl⟩
  refine ⟨h.1.trans (by decide), h.2.2.1, h.2.2.2.2.1, h.2.2.2.2.2 999999999⟩

/-- C3: in every reachable state each category has at most one pending entry
and at most one armed timer, and each pending entry corresponds exactly to one
live timer holding the same payload; a delayable `dispatch` replaces the
category entry with the newly submitted payload under a fresh handle, leaves
every other category untouched, and cancels the previously recorded timer, so
two simultaneously armed timers for one category never exist. -/
theorem pending_unique_and_latest (delayMs : Nat) (s : DispatcherState)
    (hs : Reachable delayMs s) (p : NotificationPayload)
    (hd : delayMs ≠ 0) (hImm : isImmediate p.eventType = false) :
    (∀ e1 ∈ s.pendingTimers, ∀ e2 ∈ s.pendingTimers, e1.1 = e2.1 → e1 = e2) ∧
    (∀ t1 ∈ s.armedTimers, ∀ t2 ∈ s.armedTimers,
        t1.payload.eventType = t2.payload.eventType → t1 = t2) ∧
    (∀ e ∈ s.pendingTimers, ∃ t ∈ s.armedTimers,
        t.id = e.2.1 ∧ t.payload = e.2.2 ∧ t.payload.eventType = e.1) ∧
    mapGet (dispatch delayMs p s).1.pendingTimers p.eventType
      = some (s.nextTimerId, p) ∧
    (∀ c, c ≠ p.eventType →
        mapGet (dispatch delayMs p s).1.pendingTimers c = mapGet s.pendingTimers c) ∧
    (∀ e, mapGet s.pendingTimers p.eventType = some e →
        ∀ t ∈ (dispatch delayMs p s).1.armedTimers, t.id ≠ e.1) := by
  obtain ⟨hm, hf⟩ := reachable_inv hs
  refine ⟨hm.entry_inj, hm.timer_inj, ?_, ?_, ?_, ?_⟩
  · intro e he
    obtain ⟨t, htm, hid, hpl⟩ := hm.entryToTimer e he
    exact ⟨t, htm, hid, hpl, by rw [hpl]; exact hm.keyMatch e he⟩
  · rcases hget : mapGet s.pendingTimers p.eventType with _ | e
    · simp only [dispatch, hd, if_false, hImm, Bool.false_eq_true, hget]
      exact mapGet_mapSet_self _ _ _
    · simp only [dispatch, hd, if_false, hImm, Bool.false_eq_true, hget]
      exact mapGet_mapSet_self _ _ _
  · intro c hc
    rcases hget : mapGet s.pendingTimers p.eventType with _ | e
    · simp only [dispatch, hd, if_false, hImm, Bool.false_eq_true, hget]
      exact mapGet_mapSet_ne _ _ _ _ (fun h => hc h.symm)
    · simp only [dispatch, hd, if_false, hImm, Bool.false_eq_true, hget]
      rw [mapGet_mapSet_ne _ _ _ _ (fun h => hc h.symm)]
      exact mapGet_mapDelete_ne _ _ _ (fun h => hc h.symm)
  · intro e hget t ht
    have hlt : e.1 < s.nextTimerId := by
      obtain ⟨t0, ht0m, ht0id, _⟩ := hm.entryToTimer _ (mapGet_mem hget)
      rw [← ht0id]
      exact hf t0 ht0m
    simp only [dispatch, hd, if_false, hImm, Bool.false_eq_true, hget] at ht
    rcases List.mem_append.mp ht with h1 | h1
    · obtain ⟨_, hpred⟩ := List.mem_filter.mp h1
      simpa using hpred
    · simp only [List.mem_singleton] at h1
      rw [h1]
      show s.nextTimerId ≠ e.1
      omega

/-- Witness for C3: dispatching `complete` again into a reachable state that
already holds a pending `complete` entry installs the new payload under the
fresh handle and leaves the `question` category untouched. -/
theorem pending_unique_and_latest_witness :
    mapGet (dispatch 120000 (samplePayload EventType.complete "b") twoPendingState).1.pendingTimers
        EventType.complete
      = some (twoPendingState.nextTimerId, samplePayload EventType.complete "b") ∧
    mapGet (dispatch 120000 (samplePayload EventType.complete "b") twoPendingState).1.pendingTimers
        EventType.question
      = mapGet twoPendingState.pendingTimers EventType.question := by
  have h := pending_unique_and_latest 120000 twoPendingState
    ⟨[Action.dispatch (samplePayload EventType.complete "a"),
      Action.dispatch (samplePayload EventType.question "q")], rfl⟩
    (samplePayload EventType.complete "b") (by decide) (by decide)
  exact ⟨h.2.2.2.1, h.2.2.2.2.1 EventType.question (by decide)⟩

/-! ### C1: coalescing -/

/-- The action trace of a coalescing burst: advance to each submission time,
then dispatch its payload. -/
def submitPhase : List (Nat × NotificationPayload) → List Action
  | [] => []
  | tp :: rest => Action.advanceTo tp.1 :: Action.dispatch tp.2 :: submitPhase rest

/-- The dispatcher state in the middle of a delayable burst for category `c`:
the clock reads `nowT`, one timer is armed to fire at `fireAtT` holding `p`,
with the matching single pending entry. -/
def pendingStateAt (c : EventType) (tid nowT fireAtT : Nat) (p : NotificationPayload) :
    DispatcherState :=
  { now := nowT
    nextTimerId := tid + 1
    armedTimers := [⟨tid, fireAtT, p⟩]
    pendingTimers := [(c, (tid, p))]
    lastImmediateTime := [] }

theorem runActions_append (delayMs : Nat) (s : DispatcherState) (l1 l2 : List Action) :
    runActions delayMs s (l1 ++ l2)
      = ((runActions delayMs (runActions delayMs s l1).1 l2).1,
         (runActions delayMs s l1).2
           ++ (runActions delayMs (runActions delayMs s l1).1 l2).2) := by
  induction l1 generalizing s with
  | nil => simp [runActions]
  | cons a l1 ih =>
    simp only [List.cons_append, runActions, List.append_eq]
    rw [ih]
    simp [List.append_assoc]

theorem getLastD_eventType (l : List NotificationPayload) (p : NotificationPayload)
    (c : EventType) (hp : p.eventType = c) (hl : ∀ q ∈ l, q.eventType = c) :
    (l.getLastD p).eventType = c := by
  induction l generalizing p with
  | nil => exact hp
  | cons q rest ih =>
    rw [List.getLastD_cons]
    exact ih q (hl q (List.mem_cons_self _ _)) (fun x hx => hl x (List.mem_cons_of_mem _ hx))

/-- Running the tail of a coalescing burst from the state holding the previous
submission: every further in-window submission cancels the previous timer and
replaces the pending entry, nothing is fanned out, and the final state holds
exactly the last submission, armed at its own fire time. -/
theorem run_submitPhase (delayMs : Nat) (hd : delayMs ≠ 0) (c : EventType)
    (hImm : isImmediate c = false) (tps : List (Nat × NotificationPayload)) :
    ∀ (tid tPrev : Nat) (p : NotificationPayload), p.eventType = c →
      (∀ x ∈ tps, x.2.eventType = c) →
      List.Chain' (· ≤ ·) (tPrev :: tps.map (fun x => x.1)) →
      (∀ x ∈ tps, x.1 < tPrev + delayMs) →
      runActions delayMs (pendingStateAt c tid tPrev (tPrev + delayMs) p) (submitPhase tps)
        = (pendingStateAt c (tid + tps.length)
            ((tps.map (fun x => x.1)).getLastD tPrev)
            ((tps.map (fun x => x.1)).getLastD tPrev + delayMs)
            ((tps.map (fun x => x.2)).getLastD p), []) := by
  induction tps with
  | nil =>
    intro tid tPrev p hp hcat hchain hwin
    simp [submitPhase, runActions]
  | cons tp rest ih =>
    intro tid tPrev p hp hcat hchain hwin
    obtain ⟨t1, p1⟩ := tp
    have hp1 : p1.eventType = c := hcat (t1, p1) (List.mem_cons_self _ _)
    have hle1 : tPrev ≤ t1 := (List.chain'_cons.mp (by simpa using hchain)).1
    have hwin1 : t1 < tPrev + delayMs := hwin (t1, p1) (List.mem_cons_self _ _)
    have hmax : max tPrev t1 = t1 := Nat.max_eq_right hle1
    have hnotdue : ¬ (tPrev + delayMs ≤ t1) := by omega
    have h1 : stepAction delayMs (pendingStateAt c tid tPrev (tPrev + delayMs) p)
        (Action.advanceTo t1) = (pendingStateAt c tid t1 (tPrev + delayMs) p, []) := by
      simp [stepAction, advanceTo, pendingStateAt, fireDue, hmax, hnotdue]
    have h2 : stepAction delayMs (pendingStateAt c tid t1 (tPrev + delayMs) p)
        (Action.dispatch p1) = (pendingStateAt c (tid + 1) t1 (t1 + delayMs) p1, []) := by
      simp [stepAction, dispatch, hd, hp1, hImm, pendingStateAt, mapGet, mapDelete, mapSet]
    have hchain' : List.Chain' (· ≤ ·) (t1 :: rest.map (fun x => x.1)) :=
      (List.chain'_cons.mp (by simpa using hchain)).2
    have hcat' : ∀ x ∈ rest, x.2.eventType = c :=
      fun x hx => hcat x (List.mem_cons_of_mem _ hx)
    have hwin' : ∀ x ∈ rest, x.1 < t1 + delayMs := by
      intro x hx
      have := hwin x (List.mem_cons_of_mem _ hx)
      omega
    have hrec := ih (tid + 1) t1 p1 hp1 hcat' hchain' hwin'
    simp only [submitPhase, runActions, h1, h2, hrec]
    simp only [List.map_cons, List.getLastD_cons, List.length_cons, List.append_nil,
      List.nil_append]
    have harith : tid + 1 + rest.length = tid + (rest.length + 1) := by omega
    rw [harith]

/-- A dispatcher state with clock `t`, next handle `n`, and nothing pending:
the shape of the state both before a burst and after its single fan-out. -/
def drainedState (t n : Nat) : DispatcherState :=
  { now := t
    nextTimerId := n
    armedTimers := []
    pendingTimers := []
    lastImmediateTime := [] }

/-- Advancing the clock past the fire time of the single armed timer fires it:
its pending entry is removed and its payload fanned out exactly once. -/
theorem fire_single (delayMs : Nat) (c : EventType) (n lastT tEnd : Nat)
    (lastP : NotificationPayload) (hcat : lastP.eventType = c)
    (hdue : lastT + delayMs ≤ tEnd) (hle : lastT ≤ tEnd) :
    stepAction delayMs (pendingStateAt c n lastT (lastT + delayMs) lastP)
        (Action.advanceTo tEnd)
      = (drainedState tEnd (n + 1), [lastP]) := by
  have hmax : max lastT tEnd = tEnd := Nat.max_eq_right hle
  simp [stepAction, advanceTo, pendingStateAt, drainedState, fireDue, hmax, hdue,
    mapDelete, hcat]

/-- C1: for every burst of N ≥ 1 delayable submissions of the same category,
all issued strictly within one delay window of the first and with a positive
delay, nothing is fanned out during the burst (each earlier submission's timer
is cancelled and its entry replaced, so its payload is never delivered), and
once the clock passes the last submission's fire time exactly one fan-out
occurs, carrying the Nth (last) payload, leaving the category drained. -/
theorem coalescing_burst (delayMs : Nat) (hd : delayMs ≠ 0) (c : EventType)
    (hImm : isImmediate c = false) (t0 : Nat) (p0 : NotificationPayload)
    (hp0 : p0.eventType = c) (tps : List (Nat × NotificationPayload))
    (hcat : ∀ x ∈ tps, x.2.eventType = c)
    (hchain : List.Chain' (· ≤ ·) (t0 :: tps.map (fun x => x.1)))
    (hwin : ∀ x ∈ tps, x.1 < t0 + delayMs)
    (tEnd : Nat) (hEnd : (tps.map (fun x => x.1)).getLastD t0 + delayMs ≤ tEnd) :
    (runActions delayMs initState
        (Action.advanceTo t0 :: Action.dispatch p0 :: submitPhase tps)).2 = [] ∧
    runActions delayMs initState
        ((Action.advanceTo t0 :: Action.dispatch p0 :: submitPhase tps)
          ++ [Action.advanceTo tEnd])
      = (drainedState tEnd (tps.length + 1),
         [(tps.map (fun x => x.2)).getLastD p0]) := by
  have hA : stepAction delayMs initState (Action.advanceTo t0) = (drainedState t0 0, []) := by
    simp [stepAction, advanceTo, initState, drainedState, fireDue,
      Nat.max_eq_right (Nat.zero_le t0)]
  have hB : stepAction delayMs (drainedState t0 0) (Action.dispatch p0)
      = (pendingStateAt c 0 t0 (t0 + delayMs) p0, []) := by
    simp [stepAction, dispatch, hd, hp0, hImm, drainedState, pendingStateAt, mapGet, mapSet]
  have hmid := run_submitPhase delayMs hd c hImm tps 0 t0 p0 hp0 hcat hchain hwin
  have hpre : runActions delayMs initState
      (Action.advanceTo t0 :: Action.dispatch p0 :: submitPhase tps)
      = (pendingStateAt c tps.length ((tps.map (fun x => x.1)).getLastD t0)
          ((tps.map (fun x => x.1)).getLastD t0 + delayMs)
          ((tps.map (fun x => x.2)).getLastD p0), []) := by
    simp only [runActions, hA, hB, hmid]
    simp
  refine ⟨by rw [hpre], ?_⟩
  rw [runActions_append, hpre]
  have hlastcat : ((tps.map (fun x => x.2)).getLastD p0).eventType = c := by
    refine getLastD_eventType _ p0 c hp0 ?_
    intro q hq
    obtain ⟨x, hx, hxq⟩ := List.mem_map.mp hq
    rw [← hxq]
    exact hcat x hx
  have hfin := fire_single delayMs c tps.length ((tps.map (fun x => x.1)).getLastD t0) tEnd
    ((tps.map (fun x => x.2)).getLastD p0) hlastcat hEnd (by omega)
  simp only [runActions, hfin]
  simp

/-- Witness for C1: two `complete` submissions at times 10 and 200 with a 1 s
delay produce exactly one fan-out, after time 1200, carrying the second
payload. -/
theorem coalescing_burst_witness :
    runActions 1000 initState
        [Action.advanceTo 10, Action.dispatch (samplePayload EventType.complete "a"),
         Action.advanceTo 200, Action.dispatch (samplePayload EventType.complete "b"),
         Action.advanceTo 1300]
      = (drainedState 1300 2, [samplePayload EventType.complete "b"]) := by
  have h := (coalescing_burst 1000 (by decide) EventType.complete (by decide) 10
    (samplePayload EventType.complete "a") rfl
    [(200, samplePayload EventType.complete "b")]
    (by decide) (by simp) (by decide) 1300 (by decide)).2
  simpa [submitPhase] using h

end Everynotify
